import Mathlib

set_option maxRecDepth 40000

/-!
Verification development for the pitch-generator web application
(`src/app.py`).  Strings are embedded as `List Char`; Python's string
operations (`strip`, `split`, substring membership, `lower`, `replace`)
are modelled as executable functions on character lists.  Whitespace and
lowercasing are modelled over ASCII, which covers every character the
program's own literals use.
-/

/-- ASCII whitespace as stripped by Python's `str.strip()`. -/
def wsChar (c : Char) : Bool :=
  c = ' ' || c = '\t' || c = '\n' || c = '\r' || c = '\x0b' || c = '\x0c'

/-- Python `s.strip()`: drop whitespace from both ends. -/
def strip (s : List Char) : List Char :=
  ((s.dropWhile wsChar).reverse.dropWhile wsChar).reverse

/-- Locate the first occurrence of `sep` in a string: returns the part
before and the part after that occurrence, or `none` when `sep` does not
occur.  This is the engine behind Python's `in`, `split(sep, 1)` and
`split(sep)`. -/
def splitFirst (sep : List Char) : List Char → Option (List Char × List Char)
  | [] => if sep.isEmpty then some ([], []) else none
  | c :: cs =>
    if sep.isPrefixOf (c :: cs) then some ([], (c :: cs).drop sep.length)
    else (splitFirst sep cs).map (fun p => (c :: p.1, p.2))

/-- Python's substring test `sep in s`. -/
def containsSub (sep s : List Char) : Bool :=
  (splitFirst sep s).isSome

/-- Fuel-driven worker for `pySplit`; the fuel bounds the number of
separator occurrences, `s.length` always suffices. -/
def pySplitAux (sep : List Char) : Nat → List Char → List (List Char)
  | 0, s => [s]
  | fuel + 1, s =>
    match splitFirst sep s with
    | none => [s]
    | some (b, a) => b :: pySplitAux sep fuel a

/-- Python `s.split(sep)` for a nonempty separator. -/
def pySplit (sep s : List Char) : List (List Char) :=
  pySplitAux sep s.length s

/-- Python `s.split(sep, 1)`: at most one split, at the first occurrence. -/
def pySplitOnce (sep s : List Char) : List (List Char) :=
  match splitFirst sep s with
  | none => [s]
  | some (b, a) => [b, a]

/-- Python `s.strip().lower().replace(' ', '_')`, applied to a chunk
header in `parse_generated_text`. -/
def normalizeHeader (s : List Char) : List Char :=
  ((strip s).map Char.toLower).map (fun c => if c = ' ' then '_' else c)

/-- The sentinel each field of the result dictionary starts with
(`'Not found'` in `parse_generated_text`). -/
def notFound : List Char := "Not found".data

/-- The first-header marker `"## Tagline ##"` searched for at the top of
`parse_generated_text`. -/
def tagMarker : List Char := "## Tagline ##".data

/-- The chunk delimiter `'## '` used by `split('## ')`. -/
def hdrSep : List Char := "## ".data

/-- The header/content delimiter `'##'` used by `part.split('##', 1)`. -/
def hashPair : List Char := "##".data

/-- Known header key `'tagline'`. -/
def keyTagline : List Char := "tagline".data

/-- Known header key `'value_proposition'`. -/
def keyValueProp : List Char := "value_proposition".data

/-- Known header key `'elevator_pitch'`. -/
def keyElevator : List Char := "elevator_pitch".data

/-- Known header key `'slide_bullets'`. -/
def keySlide : List Char := "slide_bullets".data

/-- Known header key `'competitors'`. -/
def keyCompetitors : List Char := "competitors".data

/-- Known header key `'revenue_models'`. -/
def keyRevenue : List Char := "revenue_models".data

/-- The six-field result dictionary built by `parse_generated_text`,
with the field names of the Python `sections` dictionary. -/
structure Sections where
  tagline : List Char
  value_prop : List Char
  elevator_pitch : List Char
  slide_bullets : List Char
  competitors : List Char
  revenue_models : List Char
deriving DecidableEq

/-- The initial `sections` dictionary: every field holds `'Not found'`. -/
def initialSections : Sections :=
  ⟨notFound, notFound, notFound, notFound, notFound, notFound⟩

/-- The normalized header of one chunk:
`part.split('##', 1)[0].strip().lower().replace(' ', '_')`. -/
def headerOf (part : List Char) : List Char :=
  normalizeHeader ((pySplitOnce hashPair part).headD [])

/-- The content of one chunk:
`part.split('##', 1)[1].strip()` when the split produced two pieces,
otherwise the empty string. -/
def contentOf (part : List Char) : List Char :=
  if 1 < (pySplitOnce hashPair part).length then
    strip ((pySplitOnce hashPair part).getD 1 [])
  else []

/-- The body of the `for part in parts` loop in `parse_generated_text`:
skip blank chunks, then assign the chunk's content to the field of the
first known key contained in the normalized header. -/
def processPart (secs : Sections) (part : List Char) : Sections :=
  if strip part = [] then secs
  else
    if containsSub keyTagline (headerOf part) then
      { secs with tagline := contentOf part }
    else if containsSub keyValueProp (headerOf part) then
      { secs with value_prop := contentOf part }
    else if containsSub keyElevator (headerOf part) then
      { secs with elevator_pitch := contentOf part }
    else if containsSub keySlide (headerOf part) then
      { secs with slide_bullets := contentOf part }
    else if containsSub keyCompetitors (headerOf part) then
      { secs with competitors := contentOf part }
    else if containsSub keyRevenue (headerOf part) then
      { secs with revenue_models := contentOf part }
    else secs

/-- The `clean_text` computed at the top of `parse_generated_text`:
everything after the first `"## Tagline ##"` when that marker occurs,
the whole input otherwise. -/
def cleanTextOf (text : List Char) : List Char :=
  match splitFirst tagMarker text with
  | some p => p.2
  | none => text

/-- The chunk list of `parse_generated_text`:
`("Tagline ##" + clean_text).split('## ')`. -/
def parseParts (text : List Char) : List (List Char) :=
  pySplit hdrSep ("Tagline ##".data ++ cleanTextOf text)

/-- `parse_generated_text` from `src/app.py`: the six-field record
obtained by folding the chunk loop over the chunk list, starting from
the all-`'Not found'` dictionary. -/
def parse_generated_text (text : List Char) : Sections :=
  (parseParts text).foldl processPart initialSections

/-- The sentinel prefix `'Error:'` used as the failure channel. -/
def errTok : List Char := "Error:".data

/-- The fixed part of the failure message built in the `except` branch of
`generate_pitch_content` (the caught exception's text is appended). -/
def errorMessagePre : List Char :=
  "Error: Could not generate content from AI service. The following error occurred: ".data

/-- `generate_pitch_content` from `src/app.py`, as a function of the
outcome of the model call `model.generate_content(prompt)`: a successful
call returns `response.text` unchanged; a raised exception is caught and
converted into the `'Error:'`-prefixed message. -/
def generate_pitch_content (callResult : Except (List Char) (List Char)) : List Char :=
  match callResult with
  | Except.ok t => t
  | Except.error e => errorMessagePre ++ e

/-- The payload handed to `render_template('results.html', ...)` by the
`/generate` handler: either an error-only dictionary or the parsed
six-field record. -/
inductive RenderPayload
  | errorOnly (msg : List Char)
  | pitch (s : Sections)
deriving DecidableEq

/-- The branch of the `generate` route handler on the raw model reply:
if the reply contains `'Error:'`, render an error-only payload;
otherwise parse the reply and render the record.  (Form decoding, the
network call and HTML rendering are external collaborators; the handler
is modelled as a function of the raw reply.) -/
def generate (raw_text : List Char) : RenderPayload :=
  if containsSub errTok raw_text then RenderPayload.errorOnly raw_text
  else RenderPayload.pitch (parse_generated_text raw_text)

/-- The six sections of a pitch, used to quantify over headers and
fields in specification statements. -/
inductive SKey
  | tg
  | vp
  | ep
  | sb
  | cp
  | rm
deriving DecidableEq, Fintype

/-- The exact header text the prompt requests for each section. -/
def SKey.hdr : SKey → List Char
  | .tg => "Tagline".data
  | .vp => "Value Proposition".data
  | .ep => "Elevator Pitch".data
  | .sb => "Slide Bullets".data
  | .cp => "Competitors".data
  | .rm => "Revenue Models".data

/-- The normalized key the parser matches against for each section. -/
def SKey.key : SKey → List Char
  | .tg => keyTagline
  | .vp => keyValueProp
  | .ep => keyElevator
  | .sb => keySlide
  | .cp => keyCompetitors
  | .rm => keyRevenue

/-- Field selector of the result record, by section. -/
def getKey : SKey → Sections → List Char
  | .tg, s => s.tagline
  | .vp, s => s.value_prop
  | .ep, s => s.elevator_pitch
  | .sb, s => s.slide_bullets
  | .cp, s => s.competitors
  | .rm, s => s.revenue_models

/-- Field update of the result record, by section. -/
def setKey : SKey → List Char → Sections → Sections
  | .tg, v, s => { s with tagline := v }
  | .vp, v, s => { s with value_prop := v }
  | .ep, v, s => { s with elevator_pitch := v }
  | .sb, v, s => { s with slide_bullets := v }
  | .cp, v, s => { s with competitors := v }
  | .rm, v, s => { s with revenue_models := v }

/-- The chunk the `'## '`-split produces for one section: header text, a
space, the closing `'##'` of the header marker, then the raw content. -/
def chunkOf (p : SKey × List Char) : List Char :=
  p.1.hdr ++ ' ' :: '#' :: '#' :: p.2

/-- One full section block as it appears in a reply:
`'## '` + header + `' ##'` + content. -/
def sectionBlock (p : SKey × List Char) : List Char :=
  "## ".data ++ chunkOf p

/-- A reply text consisting of a leading `'## Tagline ##'` marker, the
tagline content `c0`, then one block per listed section. -/
def mkText (c0 : List Char) (L : List (SKey × List Char)) : List Char :=
  tagMarker ++ c0 ++ (L.map sectionBlock).flatten

/-- A reply text with no `'## Tagline ##'` marker: it starts directly
with the tagline content `c0`, followed by one block per listed
section. -/
def mkTextBare (c0 : List Char) (L : List (SKey × List Char)) : List Char :=
  c0 ++ (L.map sectionBlock).flatten

/-- Section content that splits cleanly: free of `'#'`, not starting
with a space (so the closing `'##'` of its header marker is not glued
into a `'## '` delimiter), and nonblank. -/
def WFcontent (c : List Char) : Prop :=
  '#' ∉ c ∧ c.head? ≠ some ' ' ∧ strip c ≠ []

instance (c : List Char) : Decidable (WFcontent c) := by
  unfold WFcontent
  infer_instance

/-- A reply with all six headers in the specified order, sections
separated by single spaces on one line, each header followed by nonempty
content. -/
def exSingleLine : List Char :=
  ("## Tagline ## A ## Value Proposition ## B ## Elevator Pitch ## C " ++
    "## Slide Bullets ## D ## Competitors ## E ## Revenue Models ## F").data

/-- The end-to-end example reply for the left-handed-scissors idea. -/
def exScissors : List Char :=
  ("## Tagline ## Cut right, even lefty. ## Value Proposition ## ... " ++
    "## Revenue Models ## Subscription, Upsells").data

/-- A reply with all six sections present but the competitors section
placed before the tagline marker. -/
def exPermuted : List Char :=
  ("## Competitors ##\nAcme Corp\n## Tagline ##\nTag line\n" ++
    "## Value Proposition ##\nVP\n## Elevator Pitch ##\nEP\n" ++
    "## Slide Bullets ##\nSB\n## Revenue Models ##\nRM").data

/-! Lemmas about the string model. -/

/-- A list is a `isPrefixOf` of itself followed by anything. -/
theorem isPrefixOf_append_self (l t : List Char) : l.isPrefixOf (l ++ t) = true := by
  induction l with
  | nil => simp [List.isPrefixOf]
  | cons c cs ih => simp [List.isPrefixOf, ih]

/-- Splitting a string that starts with the (nonempty) separator cuts at
position zero. -/
theorem splitFirst_append_self (sep t : List Char) (hsep : sep ≠ []) :
    splitFirst sep (sep ++ t) = some ([], t) := by
  cases sep with
  | nil => exact absurd rfl hsep
  | cons c cs =>
    show splitFirst (c :: cs) (c :: (cs ++ t)) = some ([], t)
    rw [splitFirst]
    have hp : (c :: cs).isPrefixOf (c :: (cs ++ t)) = true := by
      have h := isPrefixOf_append_self (c :: cs) t
      simp only [List.cons_append] at h
      exact h
    simp only [hp, if_true]
    have hd : (c :: (cs ++ t)).drop (c :: cs).length = t := by
      have h := List.drop_left (c :: cs) t
      simp only [List.cons_append] at h
      exact h
    rw [hd]

/-- A found first occurrence decomposes the string around the separator. -/
theorem splitFirst_decomp (sep : List Char) :
    ∀ s b a, splitFirst sep s = some (b, a) → s = b ++ sep ++ a := by
  intro s
  induction s with
  | nil =>
    intro b a h
    rw [splitFirst] at h
    by_cases he : sep.isEmpty
    · simp only [he, if_true, Option.some.injEq, Prod.mk.injEq] at h
      obtain ⟨hb, ha⟩ := h
      subst hb; subst ha
      simp_all [List.isEmpty_iff]
    · rw [if_neg he] at h
      exact Option.noConfusion h
  | cons c cs ih =>
    intro b a h
    rw [splitFirst] at h
    by_cases hp : sep.isPrefixOf (c :: cs) = true
    · simp only [hp, if_true, Option.some.injEq, Prod.mk.injEq] at h
      obtain ⟨hb, ha⟩ := h
      subst hb; subst ha
      simp only [List.nil_append]
      have hpref : sep <+: (c :: cs) := by
        exact List.isPrefixOf_iff_prefix.mp hp
      obtain ⟨t, ht⟩ := hpref
      conv_lhs => rw [← ht]
      rw [← ht]
      rw [List.drop_left]
    · simp only [hp, if_false, Bool.false_eq_true] at h
      cases hsf : splitFirst sep cs with
      | none => rw [hsf] at h; simp at h
      | some p =>
        rw [hsf] at h
        simp at h
        obtain ⟨hb, ha⟩ := h
        have := ih p.1 p.2 (by rw [hsf])
        subst hb; subst ha
        simp [this]

/-- When the separator's head character never occurs, there is no
occurrence at all. -/
theorem splitFirst_none_of_head_notMem (x : Char) (r s : List Char) (h : x ∉ s) :
    splitFirst (x :: r) s = none := by
  induction s with
  | nil => rfl
  | cons c cs ih =>
    rw [splitFirst]
    have hx : x ≠ c := fun he => h (he ▸ List.mem_cons_self c cs)
    have hp : (x :: r).isPrefixOf (c :: cs) = false := by
      simp [List.isPrefixOf, hx]
    simp only [hp, Bool.false_eq_true, if_false]
    rw [ih (fun hm => h (List.mem_cons_of_mem c hm))]
    rfl

/-- Skipping a block that is free of the separator's head character only
shifts the position of the first occurrence. -/
theorem splitFirst_append_left (x : Char) (r : List Char) :
    ∀ (H t : List Char), x ∉ H →
      splitFirst (x :: r) (H ++ t) =
        (splitFirst (x :: r) t).map (fun p => (H ++ p.1, p.2)) := by
  intro H
  induction H with
  | nil =>
    intro t _
    cases h : splitFirst (x :: r) t <;> simp [h]
  | cons c cs ih =>
    intro t hmem
    have hx : x ≠ c := fun he => hmem (he ▸ List.mem_cons_self c cs)
    show splitFirst (x :: r) (c :: (cs ++ t)) = _
    rw [splitFirst]
    have hp : (x :: r).isPrefixOf (c :: (cs ++ t)) = false := by
      simp [List.isPrefixOf, hx]
    simp only [hp, Bool.false_eq_true, if_false]
    rw [ih t (fun hm => hmem (List.mem_cons_of_mem c hm))]
    cases h : splitFirst (x :: r) t <;> simp

/-- The chunk delimiter `'## '` in explicit character form. -/
theorem hdrSepChars : "## ".data = ['#', '#', ' '] := by decide

/-- In a chunk `H ++ "##" ++ c` whose header part `H` and content part
`c` are free of `'#'` and whose content does not start with a space, the
delimiter `'## '` never occurs. -/
theorem splitFirst_chunk_none (H c : List Char) (hH : '#' ∉ H) (hc : '#' ∉ c)
    (hhd : c.head? ≠ some ' ') :
    splitFirst "## ".data (H ++ '#' :: '#' :: c) = none := by
  rw [hdrSepChars]
  rw [splitFirst_append_left '#' ['#', ' '] H _ hH]
  have h1 : splitFirst ['#', '#', ' '] ('#' :: '#' :: c) = none := by
    rw [splitFirst]
    have hp1 : List.isPrefixOf ['#', '#', ' '] ('#' :: '#' :: c) = false := by
      cases c with
      | nil => simp [List.isPrefixOf]
      | cons ch c' =>
        have hch : ch ≠ ' ' := by simpa using hhd
        simp [List.isPrefixOf]
        intro h
        exact absurd h.symm hch
    simp only [hp1, Bool.false_eq_true, if_false]
    rw [splitFirst]
    have hp2 : List.isPrefixOf ['#', '#', ' '] ('#' :: c) = false := by
      cases c with
      | nil => simp [List.isPrefixOf]
      | cons ch c' =>
        have hch : ch ≠ '#' := fun he => hc (he ▸ List.mem_cons_self ch c')
        simp [List.isPrefixOf]
        intro h
        exact absurd h.symm hch
    simp only [hp2, Bool.false_eq_true, if_false]
    rw [splitFirst_none_of_head_notMem '#' _ c hc]
    rfl
  rw [h1]
  rfl

/-- In a chunk followed by a `'## '` delimiter and arbitrary further
text, the first `'## '` occurrence is exactly that delimiter. -/
theorem splitFirst_chunk_mid (H c T : List Char) (hH : '#' ∉ H) (hc : '#' ∉ c)
    (hhd : c.head? ≠ some ' ') (hne : c ≠ []) :
    splitFirst "## ".data (H ++ '#' :: '#' :: (c ++ "## ".data ++ T)) =
      some (H ++ '#' :: '#' :: c, T) := by
  rw [hdrSepChars]
  rw [splitFirst_append_left '#' ['#', ' '] H _ hH]
  obtain ⟨ch, c', rfl⟩ : ∃ ch c', c = ch :: c' := by
    cases c with
    | nil => exact absurd rfl hne
    | cons ch c' => exact ⟨ch, c', rfl⟩
  have hchsp : ch ≠ ' ' := by simpa using hhd
  have hchh : ch ≠ '#' := fun he => hc (he ▸ List.mem_cons_self ch c')
  have h1 : splitFirst ['#', '#', ' '] ((ch :: c') ++ ['#', '#', ' '] ++ T) =
      some (ch :: c', T) := by
    rw [List.append_assoc]
    rw [splitFirst_append_left '#' ['#', ' '] (ch :: c') _ hc]
    rw [splitFirst_append_self ['#', '#', ' '] T (by simp)]
    simp
  have h2 : splitFirst ['#', '#', ' '] ('#' :: '#' :: ((ch :: c') ++ ['#', '#', ' '] ++ T)) =
      some ('#' :: '#' :: ch :: c', T) := by
    rw [splitFirst]
    have hp1 : List.isPrefixOf ['#', '#', ' ']
        ('#' :: '#' :: ((ch :: c') ++ ['#', '#', ' '] ++ T)) = false := by
      simp [List.isPrefixOf]
      intro h
      exact absurd h.symm hchsp
    simp only [hp1, Bool.false_eq_true, if_false]
    rw [splitFirst]
    have hp2 : List.isPrefixOf ['#', '#', ' ']
        ('#' :: ((ch :: c') ++ ['#', '#', ' '] ++ T)) = false := by
      simp [List.isPrefixOf]
      intro h
      exact absurd h.symm hchh
    simp only [hp2, Bool.false_eq_true, if_false]
    rw [h1]
    rfl
  rw [h2]
  rfl

/-- The fuel argument of `pySplitAux` is irrelevant once it dominates
the string length (separator nonempty). -/
theorem pySplitAux_fuel (sep : List Char) (hsep : sep ≠ []) :
    ∀ n m s, s.length ≤ n → s.length ≤ m →
      pySplitAux sep n s = pySplitAux sep m s := by
  intro n
  induction n with
  | zero =>
    intro m s hn _
    have hs : s = [] := List.eq_nil_of_length_eq_zero (Nat.le_zero.mp hn)
    subst hs
    cases m with
    | zero => rfl
    | succ m' =>
      show [([] : List Char)] = pySplitAux sep (m' + 1) []
      rw [pySplitAux]
      cases sep with
      | nil => exact absurd rfl hsep
      | cons x r => rfl
  | succ n' ih =>
    intro m s hn hm
    cases m with
    | zero =>
      have hs : s = [] := List.eq_nil_of_length_eq_zero (Nat.le_zero.mp hm)
      subst hs
      show pySplitAux sep (n' + 1) [] = [[]]
      rw [pySplitAux]
      cases sep with
      | nil => exact absurd rfl hsep
      | cons x r => rfl
    | succ m' =>
      rw [pySplitAux, pySplitAux]
      cases hsf : splitFirst sep s with
      | none => rfl
      | some p =>
        obtain ⟨b, a⟩ := p
        have hdec := splitFirst_decomp sep s b a hsf
        have hlt : a.length < s.length := by
          rw [hdec]
          simp only [List.length_append]
          have : 0 < sep.length := List.length_pos_of_ne_nil hsep
          omega
        show b :: pySplitAux sep n' a = b :: pySplitAux sep m' a
        rw [ih m' a (by omega) (by omega)]

/-- Unfolding `pySplit` at a found occurrence. -/
theorem pySplit_cons (sep s b a : List Char) (hsep : sep ≠ [])
    (h : splitFirst sep s = some (b, a)) :
    pySplit sep s = b :: pySplit sep a := by
  have hdec := splitFirst_decomp sep s b a h
  have hpos : 0 < s.length := by
    rw [hdec]
    simp only [List.length_append]
    have : 0 < sep.length := List.length_pos_of_ne_nil hsep
    omega
  obtain ⟨k, hk⟩ : ∃ k, s.length = k + 1 :=
    ⟨s.length - 1, by omega⟩
  have halen : a.length ≤ k := by
    have : 0 < sep.length := List.length_pos_of_ne_nil hsep
    rw [hdec] at hk
    simp only [List.length_append] at hk
    omega
  show pySplitAux sep s.length s = b :: pySplit sep a
  rw [hk, pySplitAux, h]
  show b :: pySplitAux sep k a = b :: pySplit sep a
  rw [pySplitAux_fuel sep hsep k a.length a halen (Nat.le_refl _)]
  rfl

/-- Unfolding `pySplit` when the separator does not occur. -/
theorem pySplit_single (sep s : List Char) (h : splitFirst sep s = none) :
    pySplit sep s = [s] := by
  show pySplitAux sep s.length s = [s]
  cases hl : s.length with
  | zero => rfl
  | succ k => rw [pySplitAux, h]

/-- Stripping the empty string gives the empty string. -/
theorem strip_nil : strip [] = [] := rfl

/-- A nonblank string is nonempty. -/
theorem ne_nil_of_strip_ne_nil (c : List Char) (h : strip c ≠ []) : c ≠ [] := by
  intro hc
  exact h (hc ▸ strip_nil)

/-- A string starting with a non-whitespace character is nonblank. -/
theorem strip_cons_ne_nil (c : Char) (t : List Char) (h : wsChar c = false) :
    strip (c :: t) ≠ [] := by
  intro hcontra
  rw [strip] at hcontra
  have h1 : List.dropWhile wsChar (c :: t) = c :: t := by
    simp [List.dropWhile_cons, h]
  rw [h1] at hcontra
  have h2 := List.reverse_eq_nil_iff.mp hcontra
  rw [List.dropWhile_eq_nil_iff] at h2
  have h3 := h2 c (by simp)
  rw [h] at h3
  exact Bool.noConfusion h3

/-- A section chunk is never blank: it starts with its header text. -/
theorem strip_chunk_ne_nil (k : SKey) (c : List Char) : strip (chunkOf (k, c)) ≠ [] := by
  cases k <;> exact strip_cons_ne_nil _ _ (by decide)

/-- A section chunk regrouped as header-with-space followed by the two
hashes and the content. -/
theorem chunkOf_shape (k : SKey) (c : List Char) :
    chunkOf (k, c) = (SKey.hdr k ++ [' ']) ++ '#' :: '#' :: c := by
  simp [chunkOf]

/-- No header text contains a hash, even with the trailing space. -/
theorem hdr_no_hash (k : SKey) : '#' ∉ SKey.hdr k ++ [' '] := by
  cases k <;> decide

/-- Splitting a section chunk on `'##'` separates header from content. -/
theorem pySplitOnce_chunk (k : SKey) (c : List Char) :
    pySplitOnce hashPair (chunkOf (k, c)) = [SKey.hdr k ++ [' '], c] := by
  have h1 : splitFirst hashPair (chunkOf (k, c)) = some (SKey.hdr k ++ [' '], c) := by
    rw [chunkOf_shape]
    show splitFirst ('#' :: ['#']) _ = _
    rw [splitFirst_append_left '#' ['#'] _ _ (hdr_no_hash k)]
    rw [show ('#' :: '#' :: c) = ['#', '#'] ++ c from rfl]
    rw [splitFirst_append_self ['#', '#'] c (by simp)]
    simp
  rw [pySplitOnce, h1]

/-- The normalized header of a section chunk is exactly its key. -/
theorem headerOf_chunk (k : SKey) (c : List Char) :
    headerOf (chunkOf (k, c)) = SKey.key k := by
  rw [headerOf, pySplitOnce_chunk]
  simp only [List.headD_cons]
  cases k <;> decide

/-- The content of a section chunk is its raw content, stripped. -/
theorem contentOf_chunk (k : SKey) (c : List Char) :
    contentOf (chunkOf (k, c)) = strip c := by
  rw [contentOf, pySplitOnce_chunk]
  simp

/-- The parser's containment test on two keys holds exactly for equal
keys: no key is a substring of a different key. -/
theorem key_containsSub (j k : SKey) :
    containsSub (SKey.key j) (SKey.key k) = decide (j = k) := by
  revert j k
  decide

/-- The loop body maps a section chunk to an update of exactly that
section's field with the stripped content. -/
theorem processPart_chunk (s : Sections) (k : SKey) (c : List Char) :
    processPart s (chunkOf (k, c)) = setKey k (strip c) s := by
  have h0 := strip_chunk_ne_nil k c
  simp only [processPart, if_neg h0, headerOf_chunk, contentOf_chunk]
  rw [show keyTagline = SKey.key SKey.tg from rfl,
      show keyValueProp = SKey.key SKey.vp from rfl,
      show keyElevator = SKey.key SKey.ep from rfl,
      show keySlide = SKey.key SKey.sb from rfl,
      show keyCompetitors = SKey.key SKey.cp from rfl,
      show keyRevenue = SKey.key SKey.rm from rfl]
  rw [key_containsSub, key_containsSub, key_containsSub,
      key_containsSub, key_containsSub, key_containsSub]
  cases k <;> simp [setKey]

/-- The `'## '` delimiter never occurs inside a well-formed section
chunk. -/
theorem splitFirst_chunkOf_none (k : SKey) (c : List Char) (hc : '#' ∉ c)
    (hhd : c.head? ≠ some ' ') :
    splitFirst hdrSep (chunkOf (k, c)) = none := by
  rw [chunkOf_shape]
  exact splitFirst_chunk_none _ _ (hdr_no_hash k) hc hhd

/-- Splitting a concatenation of well-formed section blocks on `'## '`
recovers exactly the chunk of each section. -/
theorem pySplit_blocks :
    ∀ (L : List (SKey × List Char)) (p0 : SKey × List Char),
      '#' ∉ p0.2 → p0.2.head? ≠ some ' ' → p0.2 ≠ [] →
      (∀ p ∈ L, '#' ∉ p.2 ∧ p.2.head? ≠ some ' ' ∧ p.2 ≠ []) →
      pySplit hdrSep (chunkOf p0 ++ (L.map sectionBlock).flatten) =
        chunkOf p0 :: L.map chunkOf := by
  intro L
  induction L with
  | nil =>
    intro p0 hc hhd _ _
    obtain ⟨k0, c0⟩ := p0
    simp only [List.map_nil, List.flatten_nil, List.append_nil]
    rw [pySplit_single _ _ (splitFirst_chunkOf_none k0 c0 hc hhd)]
  | cons q L' ih =>
    intro p0 hc hhd hne hL
    obtain ⟨k0, c0⟩ := p0
    have heq : chunkOf (k0, c0) ++ (List.map sectionBlock (q :: L')).flatten =
        (SKey.hdr k0 ++ [' ']) ++
          '#' :: '#' :: (c0 ++ "## ".data ++ (chunkOf q ++ (List.map sectionBlock L').flatten)) := by
      simp [chunkOf, sectionBlock, hdrSep]
    rw [heq]
    have hsf := splitFirst_chunk_mid (SKey.hdr k0 ++ [' ']) c0
      (chunkOf q ++ (List.map sectionBlock L').flatten) (hdr_no_hash k0) hc hhd hne
    have hstep : pySplit hdrSep
        ((SKey.hdr k0 ++ [' ']) ++
          '#' :: '#' :: (c0 ++ "## ".data ++ (chunkOf q ++ (List.map sectionBlock L').flatten))) =
        ((SKey.hdr k0 ++ [' ']) ++ '#' :: '#' :: c0) ::
          pySplit hdrSep (chunkOf q ++ (List.map sectionBlock L').flatten) := by
      apply pySplit_cons _ _ _ _ (by simp [hdrSep])
      show splitFirst hdrSep _ = _
      rw [show hdrSep = "## ".data from rfl]
      exact hsf
    rw [hstep]
    rw [← chunkOf_shape]
    obtain ⟨hq1, hq2, hq3⟩ := hL q (List.mem_cons_self q L')
    rw [ih q hq1 hq2 hq3 (fun p hp => hL p (List.mem_cons_of_mem q hp))]
    rfl

/-- Folding the loop body over section chunks folds the corresponding
field updates. -/
theorem foldl_chunks (PL : List (SKey × List Char)) :
    ∀ s : Sections,
      (PL.map chunkOf).foldl processPart s =
        PL.foldl (fun acc p => setKey p.1 (strip p.2) acc) s := by
  induction PL with
  | nil => intro s; rfl
  | cons q PL' ih =>
    intro s
    obtain ⟨k, c⟩ := q
    simp only [List.map_cons, List.foldl_cons]
    rw [processPart_chunk]
    exact ih _

/-- Reading a field immediately after setting it. -/
theorem getKey_setKey_same (k : SKey) (v : List Char) (s : Sections) :
    getKey k (setKey k v s) = v := by
  cases k <;> rfl

/-- Setting a different field does not change a field. -/
theorem getKey_setKey_diff (k j : SKey) (v : List Char) (s : Sections) (h : j ≠ k) :
    getKey k (setKey j v s) = getKey k s := by
  cases k <;> cases j <;> first | rfl | exact absurd rfl h

/-- A fold of field updates whose keys avoid `k` leaves field `k`
unchanged. -/
theorem foldl_setKey_notMem (k : SKey) :
    ∀ (PL : List (SKey × List Char)) (s : Sections), k ∉ PL.map Prod.fst →
      getKey k (PL.foldl (fun acc p => setKey p.1 (strip p.2) acc) s) = getKey k s := by
  intro PL
  induction PL with
  | nil => intro s _; rfl
  | cons q PL' ih =>
    intro s hk
    simp only [List.map_cons, List.mem_cons] at hk
    push_neg at hk
    simp only [List.foldl_cons]
    rw [ih _ hk.2]
    exact getKey_setKey_diff k q.1 _ s (fun he => hk.1 he.symm)

/-- With pairwise distinct keys, a fold of field updates gives every
listed key the stripped content listed with it. -/
theorem foldl_setKey_mem :
    ∀ (PL : List (SKey × List Char)) (s : Sections), (PL.map Prod.fst).Nodup →
      ∀ p ∈ PL, getKey p.1 (PL.foldl (fun acc q => setKey q.1 (strip q.2) acc) s) = strip p.2 := by
  intro PL
  induction PL with
  | nil => intro s _ p hp; exact absurd hp (List.not_mem_nil p)
  | cons q PL' ih =>
    intro s hnd p hp
    simp only [List.map_cons, List.nodup_cons] at hnd
    simp only [List.foldl_cons]
    rcases List.mem_cons.mp hp with hq | hp'
    · subst hq
      rw [foldl_setKey_notMem p.1 PL' _ hnd.1]
      exact getKey_setKey_same p.1 _ s
    · exact ih _ hnd.2 p hp'

/-- Well-formed content is nonempty. -/
theorem WFcontent.ne_nil {c : List Char} (h : WFcontent c) : c ≠ [] :=
  ne_nil_of_strip_ne_nil c h.2.2

/-- Parsing a reply made of a tagline marker, tagline content and a list
of well-formed section blocks folds one field update per section. -/
theorem parse_mkText (c0 : List Char) (L : List (SKey × List Char))
    (h0 : WFcontent c0) (hL : ∀ p ∈ L, WFcontent p.2) :
    parse_generated_text (mkText c0 L) =
      ((SKey.tg, c0) :: L).foldl (fun acc p => setKey p.1 (strip p.2) acc) initialSections := by
  have hL' : ∀ p ∈ L, '#' ∉ p.2 ∧ p.2.head? ≠ some ' ' ∧ p.2 ≠ [] := by
    intro p hp
    exact ⟨(hL p hp).1, (hL p hp).2.1, (hL p hp).ne_nil⟩
  have hclean : cleanTextOf (mkText c0 L) = c0 ++ (List.map sectionBlock L).flatten := by
    rw [cleanTextOf, mkText, List.append_assoc,
      splitFirst_append_self tagMarker _ (by decide)]
  have hparts : parseParts (mkText c0 L) = List.map chunkOf ((SKey.tg, c0) :: L) := by
    rw [parseParts, hclean]
    have hTT : "Tagline ##".data ++ (c0 ++ (List.map sectionBlock L).flatten) =
        chunkOf (SKey.tg, c0) ++ (List.map sectionBlock L).flatten := by
      rw [show "Tagline ##".data = "Tagline".data ++ [' ', '#', '#'] from by decide]
      simp [chunkOf, SKey.hdr, List.append_assoc]
    rw [hTT]
    rw [pySplit_blocks L (SKey.tg, c0) h0.1 h0.2.1 h0.ne_nil hL']
    rfl
  rw [parse_generated_text, hparts, foldl_chunks]

/-! Claim theorems. -/

/-- C1 (counterexample): a reply with all six headers in the specified
order, each followed by nonempty content, on which the parser does not
return the trimmed section contents: with single-space separation the
closing `'##'` of each header merges with the following space into a
`'## '` delimiter, detaching every content from its header. -/
theorem claim1_counterexample :
    ¬ ((parse_generated_text exSingleLine).tagline = "A".data ∧
       (parse_generated_text exSingleLine).value_prop = "B".data ∧
       (parse_generated_text exSingleLine).elevator_pitch = "C".data ∧
       (parse_generated_text exSingleLine).slide_bullets = "D".data ∧
       (parse_generated_text exSingleLine).competitors = "E".data ∧
       (parse_generated_text exSingleLine).revenue_models = "F".data) := by
  decide

/-- C1 (amended): for every reply of the form `'## Tagline ##'` + c1 +
`'## Value Proposition ##'` + c2 + ... + `'## Revenue Models ##'` + c6
whose section contents are nonblank, contain no `'#'` and do not begin
with a space, the parser returns all six fields holding exactly the
whitespace-trimmed contents. -/
theorem claim1_all_headers_in_order (c1 c2 c3 c4 c5 c6 : List Char)
    (h1 : WFcontent c1) (h2 : WFcontent c2) (h3 : WFcontent c3)
    (h4 : WFcontent c4) (h5 : WFcontent c5) (h6 : WFcontent c6) :
    parse_generated_text (mkText c1
        [(SKey.vp, c2), (SKey.ep, c3), (SKey.sb, c4), (SKey.cp, c5), (SKey.rm, c6)]) =
      ⟨strip c1, strip c2, strip c3, strip c4, strip c5, strip c6⟩ := by
  rw [parse_mkText c1 _ h1 ?hl]
  case hl =>
    intro p hp
    simp only [List.mem_cons, List.not_mem_nil, or_false] at hp
    rcases hp with rfl | rfl | rfl | rfl | rfl <;> assumption
  rfl

/-- C1 (witness): the amended theorem applied to concrete contents. -/
theorem claim1_witness :
    WFcontent "\nCatchy one-liner\n".data ∧
      parse_generated_text (mkText "\nCatchy one-liner\n".data
          [(SKey.vp, "\nVP text\n".data), (SKey.ep, "\nEP text\n".data),
           (SKey.sb, "\nSB text\n".data), (SKey.cp, "\nCP text\n".data),
           (SKey.rm, "\nRM text\n".data)]) =
        ⟨strip "\nCatchy one-liner\n".data, strip "\nVP text\n".data,
         strip "\nEP text\n".data, strip "\nSB text\n".data,
         strip "\nCP text\n".data, strip "\nRM text\n".data⟩ :=
  ⟨by decide,
    claim1_all_headers_in_order _ _ _ _ _ _ (by decide) (by decide) (by decide)
      (by decide) (by decide) (by decide)⟩

/-- C2 (counterexample): a reply whose six sections appear with the
competitors section before the tagline marker; the parser drops
everything up to and including `'## Tagline ##'`, so the competitors
field keeps the sentinel instead of its section content. -/
theorem claim2_counterexample :
    (parse_generated_text exPermuted).competitors = notFound ∧
      (parse_generated_text exPermuted).competitors ≠ "Acme Corp".data := by
  decide

/-- C2 (amended): for sections placed after the `'## Tagline ##'`
marker, assignment is by header content and independent of position: any
arrangement of distinct-keyed well-formed blocks gives every listed key
its own trimmed content (sections before the marker are discarded with
it, as the counterexample shows). -/
theorem claim2_header_based_assignment (c0 : List Char) (L : List (SKey × List Char))
    (h0 : WFcontent c0) (hL : ∀ p ∈ L, WFcontent p.2)
    (hnd : (List.map Prod.fst ((SKey.tg, c0) :: L)).Nodup) :
    ∀ p ∈ (SKey.tg, c0) :: L,
      getKey p.1 (parse_generated_text (mkText c0 L)) = strip p.2 := by
  intro p hp
  rw [parse_mkText c0 L h0 hL]
  exact foldl_setKey_mem _ _ hnd p hp

/-- C2 (witness): the amended theorem applied to a concrete scrambled
order, reading back the competitors section. -/
theorem claim2_witness :
    getKey SKey.cp (parse_generated_text (mkText "\nTag\n".data
        [(SKey.cp, "\nAcme\n".data), (SKey.rm, "\nRM\n".data),
         (SKey.vp, "\nVP\n".data), (SKey.sb, "\nSB\n".data),
         (SKey.ep, "\nEP\n".data)])) = strip "\nAcme\n".data :=
  claim2_header_based_assignment _ _ (by decide)
    (by intro p hp; fin_cases hp <;> decide) (by decide)
    (SKey.cp, "\nAcme\n".data) (by decide)

/-- C3 (counterexample): on the end-to-end example reply the parser does
not return `tagline = 'Cut right, even lefty.'` and
`revenue_models = 'Subscription, Upsells'`. -/
theorem claim3_counterexample :
    ¬ ((parse_generated_text exScissors).tagline = "Cut right, even lefty.".data ∧
       (parse_generated_text exScissors).revenue_models = "Subscription, Upsells".data) := by
  decide

/-- C3 (amended): on that reply the single-space separation makes every
header's closing `'##'` merge with the following space into a `'## '`
delimiter, so the matched fields receive empty content and the sections
never mentioned keep the sentinel. -/
theorem claim3_scissors_example :
    (parse_generated_text exScissors).tagline = [] ∧
      (parse_generated_text exScissors).value_prop = [] ∧
      (parse_generated_text exScissors).revenue_models = [] ∧
      (parse_generated_text exScissors).elevator_pitch = notFound ∧
      (parse_generated_text exScissors).slide_bullets = notFound ∧
      (parse_generated_text exScissors).competitors = notFound := by
  decide

/-- C5 (counterexample): a reply without the `'## Tagline ##'` marker
that begins directly with tagline content, on which the tagline field
does not receive the trimmed leading content: the content starts with a
space, which merges with the synthetic `'Tagline ##'` prefix into a
`'## '` delimiter, so the tagline field gets the empty string instead
of `'My tagline'`. -/
theorem claim5_counterexample :
    (parse_generated_text " My tagline\n## Value Proposition ##\nVP".data).tagline = [] ∧
      (parse_generated_text " My tagline\n## Value Proposition ##\nVP".data).tagline ≠
        strip " My tagline\n".data := by
  decide

/-- C5 (amended): a reply without the `'## Tagline ##'` marker that
starts directly with the tagline content still gets that content
(trimmed) assigned to the tagline field — because the whole input is
kept as the remainder and the synthetic `'Tagline ##'` marker is
prepended before splitting — provided the tagline content is nonblank,
contains no `'#'` and does not begin with a space, and the following
section blocks are well-formed with no tagline-keyed header among
them. -/
theorem claim5_no_marker_recovers_tagline (c0 : List Char) (L : List (SKey × List Char))
    (hm : splitFirst tagMarker (mkTextBare c0 L) = none)
    (h0 : WFcontent c0) (hL : ∀ p ∈ L, WFcontent p.2)
    (htg : SKey.tg ∉ List.map Prod.fst L) :
    (parse_generated_text (mkTextBare c0 L)).tagline = strip c0 := by
  have hL' : ∀ p ∈ L, '#' ∉ p.2 ∧ p.2.head? ≠ some ' ' ∧ p.2 ≠ [] := by
    intro p hp
    exact ⟨(hL p hp).1, (hL p hp).2.1, (hL p hp).ne_nil⟩
  have hclean : cleanTextOf (mkTextBare c0 L) = mkTextBare c0 L := by
    rw [cleanTextOf, hm]
  have hparts : parseParts (mkTextBare c0 L) = List.map chunkOf ((SKey.tg, c0) :: L) := by
    rw [parseParts, hclean, mkTextBare]
    have hTT : "Tagline ##".data ++ (c0 ++ (List.map sectionBlock L).flatten) =
        chunkOf (SKey.tg, c0) ++ (List.map sectionBlock L).flatten := by
      rw [show "Tagline ##".data = "Tagline".data ++ [' ', '#', '#'] from by decide]
      simp [chunkOf, SKey.hdr, List.append_assoc]
    rw [hTT]
    rw [pySplit_blocks L (SKey.tg, c0) h0.1 h0.2.1 h0.ne_nil hL']
    rfl
  rw [parse_generated_text, hparts, foldl_chunks]
  show getKey SKey.tg _ = strip c0
  simp only [List.foldl_cons]
  rw [foldl_setKey_notMem SKey.tg L _ htg]
  exact getKey_setKey_same SKey.tg _ initialSections

/-- C5 (witness): the theorem applied to a concrete marker-free reply. -/
theorem claim5_witness :
    (parse_generated_text (mkTextBare "My tagline\n".data
        [(SKey.vp, "\nVP\n".data)])).tagline = strip "My tagline\n".data :=
  claim5_no_marker_recovers_tagline _ _ (by decide) (by decide)
    (by intro p hp; fin_cases hp; decide) (by decide)

/-- A loop step whose chunk header does not contain key `k` leaves field
`k` unchanged. -/
theorem processPart_preserve (k : SKey) (s : Sections) (p : List Char)
    (h : containsSub (SKey.key k) (headerOf p) = false) :
    getKey k (processPart s p) = getKey k s := by
  by_cases h0 : strip p = []
  · rw [processPart, if_pos h0]
  · rw [processPart, if_neg h0]
    split_ifs with h1 h2 h3 h4 h5 h6
    · show getKey k (setKey SKey.tg (contentOf p) s) = getKey k s
      apply getKey_setKey_diff
      intro he
      subst he
      have h' : containsSub keyTagline (headerOf p) = false := h
      rw [h'] at h1
      exact Bool.noConfusion h1
    · show getKey k (setKey SKey.vp (contentOf p) s) = getKey k s
      apply getKey_setKey_diff
      intro he
      subst he
      have h' : containsSub keyValueProp (headerOf p) = false := h
      rw [h'] at h2
      exact Bool.noConfusion h2
    · show getKey k (setKey SKey.ep (contentOf p) s) = getKey k s
      apply getKey_setKey_diff
      intro he
      subst he
      have h' : containsSub keyElevator (headerOf p) = false := h
      rw [h'] at h3
      exact Bool.noConfusion h3
    · show getKey k (setKey SKey.sb (contentOf p) s) = getKey k s
      apply getKey_setKey_diff
      intro he
      subst he
      have h' : containsSub keySlide (headerOf p) = false := h
      rw [h'] at h4
      exact Bool.noConfusion h4
    · show getKey k (setKey SKey.cp (contentOf p) s) = getKey k s
      apply getKey_setKey_diff
      intro he
      subst he
      have h' : containsSub keyCompetitors (headerOf p) = false := h
      rw [h'] at h5
      exact Bool.noConfusion h5
    · show getKey k (setKey SKey.rm (contentOf p) s) = getKey k s
      apply getKey_setKey_diff
      intro he
      subst he
      have h' : containsSub keyRevenue (headerOf p) = false := h
      rw [h'] at h6
      exact Bool.noConfusion h6
    · rfl

/-- Folding the loop over chunks none of whose headers contains key `k`
leaves field `k` unchanged. -/
theorem foldl_processPart_preserve (k : SKey) :
    ∀ (parts : List (List Char)) (s : Sections),
      (∀ p ∈ parts, containsSub (SKey.key k) (headerOf p) = false) →
      getKey k (parts.foldl processPart s) = getKey k s := by
  intro parts
  induction parts with
  | nil => intro s _; rfl
  | cons q parts' ih =>
    intro s hall
    simp only [List.foldl_cons]
    rw [ih _ (fun p hp => hall p (List.mem_cons_of_mem q hp))]
    exact processPart_preserve k s q (hall q (List.mem_cons_self q parts'))

/-- C4: whenever a known key occurs in no normalized chunk header of the
input, the corresponding field of the parse result is exactly the
`'Not found'` sentinel. -/
theorem claim4_unmatched_field_sentinel (k : SKey) (text : List Char)
    (h : ∀ p ∈ parseParts text, containsSub (SKey.key k) (headerOf p) = false) :
    getKey k (parse_generated_text text) = notFound := by
  rw [parse_generated_text, foldl_processPart_preserve k _ _ h]
  cases k <;> rfl

/-- C4 (witness): the theorem applied to a reply that never mentions
the competitors section. -/
theorem claim4_witness :
    getKey SKey.cp (parse_generated_text
      "## Tagline ##\nHi\n## Value Proposition ##\nVP".data) = notFound :=
  claim4_unmatched_field_sentinel SKey.cp _ (by decide)

/-- C8: header matching is by substring containment, not equality: a
nonblank chunk whose normalized header contains key `k` (and no other
key, so no earlier branch of the chain fires) gets its trimmed content
assigned to field `k`. -/
theorem claim8_containment_assigns (k : SKey) (s : Sections) (p : List Char)
    (h0 : strip p ≠ []) (h1 : containsSub (SKey.key k) (headerOf p) = true)
    (h2 : ∀ j : SKey, j ≠ k → containsSub (SKey.key j) (headerOf p) = false) :
    getKey k (processPart s p) = contentOf p := by
  rw [processPart, if_neg h0]
  cases k with
  | tg =>
    rw [if_pos (show containsSub keyTagline (headerOf p) = true from h1)]
    rfl
  | vp =>
    rw [if_neg (by rw [show containsSub keyTagline (headerOf p) =
          containsSub (SKey.key SKey.tg) (headerOf p) from rfl,
          h2 SKey.tg (by decide)]; exact Bool.noConfusion)]
    rw [if_pos (show containsSub keyValueProp (headerOf p) = true from h1)]
    rfl
  | ep =>
    rw [if_neg (by rw [show containsSub keyTagline (headerOf p) =
          containsSub (SKey.key SKey.tg) (headerOf p) from rfl,
          h2 SKey.tg (by decide)]; exact Bool.noConfusion)]
    rw [if_neg (by rw [show containsSub keyValueProp (headerOf p) =
          containsSub (SKey.key SKey.vp) (headerOf p) from rfl,
          h2 SKey.vp (by decide)]; exact Bool.noConfusion)]
    rw [if_pos (show containsSub keyElevator (headerOf p) = true from h1)]
    rfl
  | sb =>
    rw [if_neg (by rw [show containsSub keyTagline (headerOf p) =
          containsSub (SKey.key SKey.tg) (headerOf p) from rfl,
          h2 SKey.tg (by decide)]; exact Bool.noConfusion)]
    rw [if_neg (by rw [show containsSub keyValueProp (headerOf p) =
          containsSub (SKey.key SKey.vp) (headerOf p) from rfl,
          h2 SKey.vp (by decide)]; exact Bool.noConfusion)]
    rw [if_neg (by rw [show containsSub keyElevator (headerOf p) =
          containsSub (SKey.key SKey.ep) (headerOf p) from rfl,
          h2 SKey.ep (by decide)]; exact Bool.noConfusion)]
    rw [if_pos (show containsSub keySlide (headerOf p) = true from h1)]
    rfl
  | cp =>
    rw [if_neg (by rw [show containsSub keyTagline (headerOf p) =
          containsSub (SKey.key SKey.tg) (headerOf p) from rfl,
          h2 SKey.tg (by decide)]; exact Bool.noConfusion)]
    rw [if_neg (by rw [show containsSub keyValueProp (headerOf p) =
          containsSub (SKey.key SKey.vp) (headerOf p) from rfl,
          h2 SKey.vp (by decide)]; exact Bool.noConfusion)]
    rw [if_neg (by rw [show containsSub keyElevator (headerOf p) =
          containsSub (SKey.key SKey.ep) (headerOf p) from rfl,
          h2 SKey.ep (by decide)]; exact Bool.noConfusion)]
    rw [if_neg (by rw [show containsSub keySlide (headerOf p) =
          containsSub (SKey.key SKey.sb) (headerOf p) from rfl,
          h2 SKey.sb (by decide)]; exact Bool.noConfusion)]
    rw [if_pos (show containsSub keyCompetitors (headerOf p) = true from h1)]
    rfl
  | rm =>
    rw [if_neg (by rw [show containsSub keyTagline (headerOf p) =
          containsSub (SKey.key SKey.tg) (headerOf p) from rfl,
          h2 SKey.tg (by decide)]; exact Bool.noConfusion)]
    rw [if_neg (by rw [show containsSub keyValueProp (headerOf p) =
          containsSub (SKey.key SKey.vp) (headerOf p) from rfl,
          h2 SKey.vp (by decide)]; exact Bool.noConfusion)]
    rw [if_neg (by rw [show containsSub keyElevator (headerOf p) =
          containsSub (SKey.key SKey.ep) (headerOf p) from rfl,
          h2 SKey.ep (by decide)]; exact Bool.noConfusion)]
    rw [if_neg (by rw [show containsSub keySlide (headerOf p) =
          containsSub (SKey.key SKey.sb) (headerOf p) from rfl,
          h2 SKey.sb (by decide)]; exact Bool.noConfusion)]
    rw [if_neg (by rw [show containsSub keyCompetitors (headerOf p) =
          containsSub (SKey.key SKey.cp) (headerOf p) from rfl,
          h2 SKey.cp (by decide)]; exact Bool.noConfusion)]
    rw [if_pos (show containsSub keyRevenue (headerOf p) = true from h1)]
    rfl

/-- C8 (witness): a chunk headed `tagline_v2` assigns the tagline
field. -/
theorem claim8_witness :
    getKey SKey.tg (processPart initialSections "Tagline_v2 ## drifted content".data) =
      contentOf "Tagline_v2 ## drifted content".data :=
  claim8_containment_assigns SKey.tg initialSections _ (by decide) (by decide)
    (by decide)

/-- C6: the request handler branches solely on whether the reply
contains `'Error:'`: a containing reply yields the error-only payload
(built without parsing), any other reply yields the parsed record. -/
theorem claim6_handler_branch (raw : List Char) :
    (containsSub errTok raw = true → generate raw = RenderPayload.errorOnly raw) ∧
      (containsSub errTok raw = false →
        generate raw = RenderPayload.pitch (parse_generated_text raw)) := by
  constructor
  · intro h
    rw [generate, if_pos h]
  · intro h
    rw [generate, if_neg (by rw [h]; exact Bool.noConfusion)]

/-- C6 (witness): both branches at concrete replies, including the
quota-exceeded error reply. -/
theorem claim6_witness :
    generate "Error: quota exceeded".data =
        RenderPayload.errorOnly "Error: quota exceeded".data ∧
      generate "## Tagline ##\nHi".data =
        RenderPayload.pitch (parse_generated_text "## Tagline ##\nHi".data) :=
  ⟨(claim6_handler_branch _).1 (by decide), (claim6_handler_branch _).2 (by decide)⟩

/-- A string with a given starting piece keeps it under appending. -/
theorem isPrefixOf_append_of_isPrefixOf :
    ∀ (l m t : List Char), l.isPrefixOf m = true → l.isPrefixOf (m ++ t) = true := by
  intro l
  induction l with
  | nil => intro m t _; simp [List.isPrefixOf]
  | cons a l' ih =>
    intro m t h
    cases m with
    | nil => exact absurd h (by simp [List.isPrefixOf])
    | cons b m' =>
      simp only [List.isPrefixOf, Bool.and_eq_true] at h
      show List.isPrefixOf (a :: l') (b :: (m' ++ t)) = true
      simp only [List.isPrefixOf, Bool.and_eq_true]
      exact ⟨h.1, ih m' t h.2⟩

/-- C7: the model-call wrapper never propagates a failure: an exception
outcome is converted into a reply starting with the literal `'Error:'`
prefix, while a successful outcome is returned unchanged. -/
theorem claim7_error_channel :
    (∀ e, errTok.isPrefixOf (generate_pitch_content (Except.error e)) = true) ∧
      ∀ t, generate_pitch_content (Except.ok t) = t := by
  constructor
  · intro e
    show errTok.isPrefixOf (errorMessagePre ++ e) = true
    exact isPrefixOf_append_of_isPrefixOf errTok errorMessagePre e (by decide)
  · intro t
    rfl

/-- C9: the parser is a pure function of its input string: two
applications to the same text give the same record. -/
theorem claim9_parser_deterministic (text : List Char) :
    parse_generated_text text = parse_generated_text text := rfl

/-- Dropping a satisfied front twice is dropping it once. -/
theorem dropWhile_dropWhile (p : Char → Bool) (l : List Char) :
    List.dropWhile p (List.dropWhile p l) = List.dropWhile p l := by
  induction l with
  | nil => rfl
  | cons a t ih =>
    by_cases h : p a = true
    · simp [List.dropWhile_cons, h, ih]
    · simp [List.dropWhile_cons, h]

/-- `dropWhile` shortens or keeps the length. -/
theorem dropWhile_length_le (p : Char → Bool) :
    ∀ l : List Char, (List.dropWhile p l).length ≤ l.length := by
  intro l
  induction l with
  | nil => exact Nat.le_refl 0
  | cons a t ih =>
    by_cases h : p a = true
    · rw [List.dropWhile_cons, if_pos h]
      exact Nat.le_succ_of_le ih
    · rw [List.dropWhile_cons, if_neg h]

/-- A list fixed by `dropWhile` has an unsatisfying head. -/
theorem head_false_of_dropWhile_self (p : Char → Bool) (a : Char) (t : List Char)
    (h : List.dropWhile p (a :: t) = a :: t) : p a = false := by
  by_cases hp : p a = true
  · rw [List.dropWhile_cons, if_pos hp] at h
    have hlen := congrArg List.length h
    have := dropWhile_length_le p t
    simp only [List.length_cons] at hlen
    omega
  · exact Bool.eq_false_iff.mpr hp

/-- Stripping is idempotent. -/
theorem strip_strip (l : List Char) : strip (strip l) = strip l := by
  cases hcase : List.dropWhile wsChar l with
  | nil =>
    have hsl : strip l = [] := by rw [strip, hcase]; rfl
    rw [hsl]
    exact strip_nil
  | cons a t =>
    have hu := dropWhile_dropWhile wsChar l
    rw [hcase] at hu
    have hpa : wsChar a = false := head_false_of_dropWhile_self wsChar a t hu
    have hdc : List.dropWhile wsChar [a] = [a] := by
      rw [List.dropWhile_cons, if_neg (by rw [hpa]; exact Bool.noConfusion)]
    have hsl : strip l = (List.dropWhile wsChar (t.reverse ++ [a])).reverse := by
      rw [strip, hcase]
      simp
    by_cases hemp : (List.dropWhile wsChar t.reverse).isEmpty = true
    · have hsl2 : strip l = [a] := by
        rw [hsl, List.dropWhile_append, if_pos hemp, hdc]
        rfl
      rw [hsl2, strip, hdc]
      show (List.dropWhile wsChar [a]).reverse = [a]
      rw [hdc]
      rfl
    · have hv := dropWhile_dropWhile wsChar t.reverse
      have hsl2 : strip l = a :: (List.dropWhile wsChar t.reverse).reverse := by
        rw [hsl, List.dropWhile_append, if_neg hemp]
        simp
      rw [hsl2, strip]
      rw [show List.dropWhile wsChar (a :: (List.dropWhile wsChar t.reverse).reverse) =
          a :: (List.dropWhile wsChar t.reverse).reverse from by
        rw [List.dropWhile_cons, if_neg (by rw [hpa]; exact Bool.noConfusion)]]
      rw [show (a :: (List.dropWhile wsChar t.reverse).reverse).reverse =
          List.dropWhile wsChar t.reverse ++ [a] from by simp]
      rw [List.dropWhile_append, hv, if_neg hemp]
      simp

/-- Every chunk content the loop writes is already trimmed. -/
theorem contentOf_trimmed (p : List Char) : strip (contentOf p) = contentOf p := by
  rw [contentOf]
  split_ifs with h
  · exact strip_strip _
  · exact strip_nil

/-- One loop step keeps every field trimmed. -/
theorem processPart_trimmed (s : Sections) (p : List Char)
    (hs : ∀ k : SKey, strip (getKey k s) = getKey k s) :
    ∀ k : SKey, strip (getKey k (processPart s p)) = getKey k (processPart s p) := by
  have hset : ∀ (j k : SKey),
      strip (getKey k (setKey j (contentOf p) s)) = getKey k (setKey j (contentOf p) s) := by
    intro j k
    by_cases hjk : j = k
    · subst hjk
      rw [getKey_setKey_same]
      exact contentOf_trimmed p
    · rw [getKey_setKey_diff _ _ _ _ hjk]
      exact hs k
  intro k
  by_cases h0 : strip p = []
  · rw [processPart, if_pos h0]
    exact hs k
  · rw [processPart, if_neg h0]
    split_ifs with h1 h2 h3 h4 h5 h6
    · exact hset SKey.tg k
    · exact hset SKey.vp k
    · exact hset SKey.ep k
    · exact hset SKey.sb k
    · exact hset SKey.cp k
    · exact hset SKey.rm k
    · exact hs k

/-- The whole loop keeps every field trimmed. -/
theorem foldl_trimmed :
    ∀ (parts : List (List Char)) (s : Sections),
      (∀ k : SKey, strip (getKey k s) = getKey k s) →
      ∀ k : SKey, strip (getKey k (parts.foldl processPart s)) =
        getKey k (parts.foldl processPart s) := by
  intro parts
  induction parts with
  | nil => intro s hs; exact hs
  | cons q parts' ih =>
    intro s hs
    simp only [List.foldl_cons]
    exact ih _ (processPart_trimmed s q hs)

/-- C10: for every input, the parser returns a record whose six fields
are each either the `'Not found'` sentinel or a whitespace-trimmed
string (the record always has exactly these six fields, and no input
makes the parse fail: the embedding is a total function into
`Sections`). -/
theorem claim10_total_and_trimmed (text : List Char) :
    ((parse_generated_text text).tagline = notFound ∨
        strip (parse_generated_text text).tagline = (parse_generated_text text).tagline) ∧
      ((parse_generated_text text).value_prop = notFound ∨
        strip (parse_generated_text text).value_prop = (parse_generated_text text).value_prop) ∧
      ((parse_generated_text text).elevator_pitch = notFound ∨
        strip (parse_generated_text text).elevator_pitch =
          (parse_generated_text text).elevator_pitch) ∧
      ((parse_generated_text text).slide_bullets = notFound ∨
        strip (parse_generated_text text).slide_bullets =
          (parse_generated_text text).slide_bullets) ∧
      ((parse_generated_text text).competitors = notFound ∨
        strip (parse_generated_text text).competitors = (parse_generated_text text).competitors) ∧
      ((parse_generated_text text).revenue_models = notFound ∨
        strip (parse_generated_text text).revenue_models =
          (parse_generated_text text).revenue_models) := by
  have hinit : ∀ k : SKey, strip (getKey k initialSections) = getKey k initialSections := by
    intro k
    cases k <;> decide
  have hall := foldl_trimmed (parseParts text) initialSections hinit
  exact ⟨Or.inr (hall SKey.tg), Or.inr (hall SKey.vp), Or.inr (hall SKey.ep),
    Or.inr (hall SKey.sb), Or.inr (hall SKey.cp), Or.inr (hall SKey.rm)⟩
